import Mathlib

/-!
Verification of the ConstantFlowAgreementV1Helper js-sdk module
(`src/js-sdk/ConstantFlowAgreementV1Helper.js`).

The core is the flow-ledger reconciler `getLatestFlows`, which folds a batch
of `FlowUpdated` events into a JavaScript object keyed by
`sender + ":" + receiver` (later events overwrite earlier ones at the same
key, keeping the key's original insertion position, which matches the
semantics of JS object property update and `Object.values` enumeration for
non-index string keys), then filters out entries whose flow rate prints as
"0".  `listFlows` applies the reconciler to two pre-filtered event batches
and projects the surviving events.
-/

set_option autoImplicit false

namespace CFAV1Helper

/-- The `args` payload of a `FlowUpdated` event, restricted to the fields the
helper reads (`i.args.sender`, `i.args.receiver`, `i.args.flowRate`).
The flow rate is an arbitrary-precision integer (a BN in the source); the
code only ever consumes its decimal-string rendering. -/
structure FlowArgs where
  sender : String
  receiver : String
  flowRate : Int
deriving Repr, DecidableEq

/-- One `FlowUpdated` event from the ledger's log.  `token` is the super
token the event was emitted for (used only by the gateway-side filter), and
`pos` is the event's total-order position in the log (block number plus
intra-block index, strictly increasing in a well-formed log).  The
reconciler itself never reads `pos`. -/
structure FlowUpdatedEvent where
  token : String
  args : FlowArgs
  pos : Nat
deriving Repr, DecidableEq

/-- The grouping key used by `getLatestFlows`:
`i.args.sender + ":" + i.args.receiver`. -/
def flowKey (e : FlowUpdatedEvent) : String :=
  e.args.sender ++ ":" ++ e.args.receiver

/-- One step of the JS object accumulation `acc[key] = i`: if the key is
already present its value is overwritten in place (the key keeps its
original enumeration position), otherwise the pair is appended. -/
def insertLww : List (String × FlowUpdatedEvent) → String → FlowUpdatedEvent →
    List (String × FlowUpdatedEvent)
  | [], k, e => [(k, e)]
  | (k', e') :: rest, k, e =>
    if k' = k then (k, e) :: rest else (k', e') :: insertLww rest k e

/-- Embeds `getLatestFlows(flows)`: fold the batch into an object keyed by
`sender + ":" + receiver`, take its values in enumeration order, and drop
entries whose flow rate's decimal rendering is `"0"`. -/
def getLatestFlows (flows : List FlowUpdatedEvent) : List FlowUpdatedEvent :=
  ((flows.foldl (fun acc i => insertLww acc (flowKey i) i) []).map Prod.snd).filter
    (fun i => toString i.args.flowRate != "0")

/-- An entry of `listFlows`' output lists: the projection
`{sender, receiver, flowRate: flowRate.toString()}`. -/
structure FlowListEntry where
  sender : String
  receiver : String
  flowRate : String
deriving Repr, DecidableEq

/-- The projection applied to each surviving event by `listFlows`. -/
def projectFlow (f : FlowUpdatedEvent) : FlowListEntry :=
  { sender := f.args.sender
    receiver := f.args.receiver
    flowRate := toString f.args.flowRate }

/-- The result object of `listFlows`.  A field equal to `none` models a
property that was never assigned on the JS result object (absent), while
`some l` models a field present with value `l`. -/
structure ListFlowsResult where
  inFlows : Option (List FlowListEntry)
  outFlows : Option (List FlowListEntry)
deriving Repr, DecidableEq

/-- Embeds `listFlows`, parametrised over the two event batches fetched by the
gateway (the batch fetched with `filter {token, receiver: account}` and the
one fetched with `filter {token, sender: account}`).  The `inFlows` field is
assigned exactly when `!onlyOutFlows`, the `outFlows` field exactly when
`!onlyInFlows`. -/
def listFlows (inBatch outBatch : List FlowUpdatedEvent)
    (onlyInFlows onlyOutFlows : Bool) : ListFlowsResult :=
  { inFlows :=
      if !onlyOutFlows then some ((getLatestFlows inBatch).map projectFlow)
      else none
    outFlows :=
      if !onlyInFlows then some ((getLatestFlows outBatch).map projectFlow)
      else none }

/-- Modelled from the spec: the LedgerGateway's
`getPastEvents("FlowUpdated", {filter: {token, receiver: account}})`
boundary, which is external to this module.  Per the spec it returns the
events of the full history whose token and receiver match the filter, in
log order. -/
def fetchInEvents (log : List FlowUpdatedEvent) (token account : String) :
    List FlowUpdatedEvent :=
  log.filter (fun e => e.token == token && e.args.receiver == account)

/-- Modelled from the spec: the LedgerGateway's
`getPastEvents("FlowUpdated", {filter: {token, sender: account}})`
boundary, which is external to this module.  Per the spec it returns the
events of the full history whose token and sender match the filter, in
log order. -/
def fetchOutEvents (log : List FlowUpdatedEvent) (token account : String) :
    List FlowUpdatedEvent :=
  log.filter (fun e => e.token == token && e.args.sender == account)

/-- Composition of `listFlows` with the (spec-modelled) gateway fetches over a
single event log. -/
def listFlowsFromLog (log : List FlowUpdatedEvent) (token account : String)
    (onlyInFlows onlyOutFlows : Bool) : ListFlowsResult :=
  listFlows (fetchInEvents log token account) (fetchOutEvents log token account)
    onlyInFlows onlyOutFlows

/-- The record shape `deleteFlow` hands to
`host.callAgreement(cfa.address, encode(deleteFlow(token, sender, receiver)), {from})`:
the normalized call parameters together with the acting identity. -/
structure DeleteFlowCall where
  superToken : String
  sender : String
  receiver : String
  fromAddr : String
deriving Repr, DecidableEq

/-- Embeds `deleteFlow({superToken, sender, receiver, by})`, parametrised over the
external normalizers (`normalizeTokenParam`, `normalizeAddressParam`).
The acting identity is computed by the JS expression
`(by && await normalizeAddressParam(by)) || senderNorm`: an omitted or
empty (falsy) `by`, or a `by` normalizing to the empty string, falls back
to the normalized sender. -/
def deleteFlow (normT normA : String → String)
    (superToken sender receiver : String) (byParam : Option String) :
    DeleteFlowCall :=
  let superTokenNorm := normT superToken
  let senderNorm := normA sender
  let receiverNorm := normA receiver
  let byNorm :=
    match byParam with
    | none => senderNorm
    | some s =>
      if s = "" then senderNorm
      else if normA s = "" then senderNorm else normA s
  { superToken := superTokenNorm
    sender := senderNorm
    receiver := receiverNorm
    fromAddr := byNorm }

/-- The raw result of the gateway's `cfa.getFlow` point query: BN values for
the last-update timestamp (in seconds), the flow rate, the deposit and the
owed deposit. -/
structure RawFlowData where
  timestamp : Nat
  flowRate : Int
  deposit : Nat
  owedDeposit : Nat
deriving Repr, DecidableEq

/-- The sanitized record returned by `getFlow`: `timestampMs` is the
argument of the `Date` constructor (milliseconds since the epoch), the
numeric fields are decimal strings. -/
structure FlowRecord where
  timestampMs : Nat
  flowRate : String
  deposit : String
  owedDeposit : String
deriving Repr, DecidableEq

/-- The result-shaping step of `getFlow`:
`{timestamp: new Date(Number(timestamp.toString())*1000),
  flowRate: flowRate.toString(), deposit: deposit.toString(),
  owedDeposit: owedDeposit.toString()}`. -/
def sanitizeFlowResult (r : RawFlowData) : FlowRecord :=
  { timestampMs := r.timestamp * 1000
    flowRate := toString r.flowRate
    deposit := toString r.deposit
    owedDeposit := toString r.owedDeposit }

/-! ### Specification-side helper definitions -/

/-- The events of a batch sharing the grouping key `k`, in batch order. -/
def eventsWithKey (b : List FlowUpdatedEvent) (k : String) :
    List FlowUpdatedEvent :=
  b.filter (fun e => flowKey e == k)

/-- The last event in input order whose grouping key is `k` (the event that
survives the reconciler's overwrite fold for that key), if any. -/
def lastWithKey : List FlowUpdatedEvent → String → Option FlowUpdatedEvent
  | [], _ => none
  | e :: rest, k =>
    match lastWithKey rest k with
    | some e' => some e'
    | none => if flowKey e = k then some e else none

/-- The reconciler's output entries for the grouping key `k`. -/
def outputFor (b : List FlowUpdatedEvent) (k : String) :
    List FlowUpdatedEvent :=
  (getLatestFlows b).filter (fun e => flowKey e == k)

/-- First-occurrence lookup in the fold's accumulator. -/
def assocFind : List (String × FlowUpdatedEvent) → String →
    Option FlowUpdatedEvent
  | [], _ => none
  | (k', e) :: rest, k => if k' = k then some e else assocFind rest k

/-- The fold step of `getLatestFlows`, named for use in lemma statements. -/
def lwwStep (acc : List (String × FlowUpdatedEvent)) (i : FlowUpdatedEvent) :
    List (String × FlowUpdatedEvent) :=
  insertLww acc (flowKey i) i

/-- The accumulator object built by `getLatestFlows`' reduce, as an
insertion-ordered association list. -/
def lwwFold (b : List FlowUpdatedEvent) : List (String × FlowUpdatedEvent) :=
  b.foldl lwwStep []

/-- A sample A→B event over token "T", used in concrete instances. -/
def evAB (r : Int) (p : Nat) : FlowUpdatedEvent :=
  { token := "T", args := { sender := "A", receiver := "B", flowRate := r }, pos := p }

end CFAV1Helper

namespace CFAV1Helper

/-! ### Lemmas about the accumulation object -/

theorem getLatestFlows_eq (b : List FlowUpdatedEvent) :
    getLatestFlows b =
      ((lwwFold b).map Prod.snd).filter (fun i => toString i.args.flowRate != "0") :=
  rfl

theorem assocFind_insertLww (acc : List (String × FlowUpdatedEvent))
    (k k' : String) (e : FlowUpdatedEvent) :
    assocFind (insertLww acc k e) k' =
      if k = k' then some e else assocFind acc k' := by
  induction acc with
  | nil => simp [insertLww, assocFind]
  | cons p rest ih =>
    obtain ⟨k₀, e₀⟩ := p
    by_cases h : k₀ = k
    · subst h
      by_cases h' : k₀ = k' <;> simp [insertLww, assocFind, h']
    · by_cases h' : k₀ = k'
      · subst h'
        have hk : ¬ k = k₀ := fun hh => h hh.symm
        simp [insertLww, assocFind, h, hk]
      · simp [insertLww, assocFind, h, h', ih]

theorem assocFind_foldl (b : List FlowUpdatedEvent) :
    ∀ (acc : List (String × FlowUpdatedEvent)) (k : String),
    assocFind (b.foldl lwwStep acc) k =
      match lastWithKey b k with
      | some e => some e
      | none => assocFind acc k := by
  induction b with
  | nil => intro acc k; simp [lastWithKey]
  | cons i rest ih =>
    intro acc k
    have h1 : (i :: rest).foldl lwwStep acc =
        rest.foldl lwwStep (insertLww acc (flowKey i) i) := rfl
    rw [h1, ih]
    cases hr : lastWithKey rest k with
    | some e' => simp [lastWithKey, hr]
    | none =>
      simp only [lastWithKey, hr, assocFind_insertLww]
      by_cases h : flowKey i = k <;> simp [h]

theorem assocFind_lwwFold (b : List FlowUpdatedEvent) (k : String) :
    assocFind (lwwFold b) k = lastWithKey b k := by
  rw [lwwFold, assocFind_foldl]
  cases lastWithKey b k <;> simp [assocFind]

theorem mem_insertLww {acc : List (String × FlowUpdatedEvent)} {k : String}
    {e : FlowUpdatedEvent} {p : String × FlowUpdatedEvent}
    (hp : p ∈ insertLww acc k e) : p ∈ acc ∨ p = (k, e) := by
  induction acc with
  | nil => exact Or.inr (by simpa [insertLww] using hp)
  | cons q rest ih =>
    obtain ⟨k₀, e₀⟩ := q
    by_cases h : k₀ = k
    · simp only [insertLww, if_pos h] at hp
      rcases List.mem_cons.1 hp with h' | h'
      · exact Or.inr h'
      · exact Or.inl (List.mem_cons_of_mem _ h')
    · simp only [insertLww, if_neg h] at hp
      rcases List.mem_cons.1 hp with h' | h'
      · exact Or.inl (h' ▸ List.mem_cons_self _ _)
      · rcases ih h' with h'' | h''
        · exact Or.inl (List.mem_cons_of_mem _ h'')
        · exact Or.inr h''

theorem mem_foldl_lwwStep {b : List FlowUpdatedEvent} :
    ∀ {acc : List (String × FlowUpdatedEvent)} {p : String × FlowUpdatedEvent},
    p ∈ b.foldl lwwStep acc → p ∈ acc ∨ (p.2 ∈ b ∧ p.1 = flowKey p.2) := by
  induction b with
  | nil => intro acc p hp; exact Or.inl hp
  | cons i rest ih =>
    intro acc p hp
    rcases ih hp with h | h
    · rcases mem_insertLww h with h' | h'
      · exact Or.inl h'
      · subst h'
        exact Or.inr ⟨List.mem_cons_self _ _, rfl⟩
    · exact Or.inr ⟨List.mem_cons_of_mem _ h.1, h.2⟩

theorem mem_lwwFold {b : List FlowUpdatedEvent} {p : String × FlowUpdatedEvent}
    (hp : p ∈ lwwFold b) : p.2 ∈ b ∧ p.1 = flowKey p.2 := by
  rcases mem_foldl_lwwStep hp with h | h
  · simp at h
  · exact h

theorem mem_of_mem_getLatestFlows {b : List FlowUpdatedEvent}
    {e : FlowUpdatedEvent} (he : e ∈ getLatestFlows b) : e ∈ b := by
  rw [getLatestFlows_eq] at he
  have h1 : e ∈ (lwwFold b).map Prod.snd := (List.mem_filter.1 he).1
  rcases List.mem_map.1 h1 with ⟨p, hp, hpe⟩
  exact hpe ▸ (mem_lwwFold hp).1


theorem mem_keys_insertLww {acc : List (String × FlowUpdatedEvent)}
    {k x : String} {e : FlowUpdatedEvent}
    (hx : x ∈ (insertLww acc k e).map Prod.fst) :
    x ∈ acc.map Prod.fst ∨ x = k := by
  rcases List.mem_map.1 hx with ⟨p, hp, hpx⟩
  rcases mem_insertLww hp with h | h
  · exact Or.inl (hpx ▸ List.mem_map_of_mem Prod.fst h)
  · subst h
    exact Or.inr hpx.symm

theorem assocFind_eq_none {l : List (String × FlowUpdatedEvent)} {k : String}
    (hk : k ∉ l.map Prod.fst) : assocFind l k = none := by
  induction l with
  | nil => rfl
  | cons p rest ih =>
    obtain ⟨k₀, e₀⟩ := p
    simp only [List.map_cons, List.mem_cons] at hk
    push_neg at hk
    have h : k₀ ≠ k := fun hh => hk.1 hh.symm
    simp [assocFind, h, ih hk.2]

theorem nodupKeys_insertLww {acc : List (String × FlowUpdatedEvent)}
    (h : (acc.map Prod.fst).Nodup) (k : String) (e : FlowUpdatedEvent) :
    ((insertLww acc k e).map Prod.fst).Nodup := by
  induction acc with
  | nil => simp [insertLww]
  | cons q rest ih =>
    obtain ⟨k₀, e₀⟩ := q
    simp only [List.map_cons, List.nodup_cons] at h
    by_cases hk : k₀ = k
    · subst hk
      simpa [insertLww] using h
    · simp only [insertLww, if_neg hk, List.map_cons, List.nodup_cons]
      refine ⟨fun hx => ?_, ih h.2⟩
      rcases mem_keys_insertLww hx with h' | h'
      · exact h.1 h'
      · exact hk h'

theorem nodupKeys_lwwFold (b : List FlowUpdatedEvent) :
    ((lwwFold b).map Prod.fst).Nodup := by
  have main : ∀ (l : List FlowUpdatedEvent)
      (acc : List (String × FlowUpdatedEvent)),
      (acc.map Prod.fst).Nodup →
      ((l.foldl lwwStep acc).map Prod.fst).Nodup := by
    intro l
    induction l with
    | nil => intro acc h; exact h
    | cons i rest ih => intro acc h; exact ih _ (nodupKeys_insertLww h _ _)
  exact main b [] (by simp)

theorem mapSnd_filter_key (l : List (String × FlowUpdatedEvent))
    (hkeys : ∀ p ∈ l, p.1 = flowKey p.2) (hnd : (l.map Prod.fst).Nodup)
    (k : String) :
    (l.map Prod.snd).filter (fun e => flowKey e == k) =
      (assocFind l k).toList := by
  induction l with
  | nil => simp [assocFind]
  | cons p rest ih =>
    obtain ⟨k₀, e₀⟩ := p
    have hk₀ : k₀ = flowKey e₀ := hkeys _ (List.mem_cons_self _ _)
    simp only [List.map_cons, List.nodup_cons] at hnd
    have ihr := ih (fun q hq => hkeys q (List.mem_cons_of_mem _ hq)) hnd.2
    by_cases h : flowKey e₀ = k
    · have hfind : assocFind rest k = none := by
        refine assocFind_eq_none (fun hmem => hnd.1 ?_)
        rw [hk₀, h]; exact hmem
      have hk₀k : k₀ = k := by rw [hk₀, h]
      simp [assocFind, hk₀k, List.filter_cons, h, ihr, hfind]
    · have hk₀k : k₀ ≠ k := by rw [hk₀]; exact h
      simp [assocFind, hk₀k, List.filter_cons, h, ihr]

theorem outputFor_eq (b : List FlowUpdatedEvent) (k : String) :
    outputFor b k =
      match lastWithKey b k with
      | some e => if toString e.args.flowRate != "0" then [e] else []
      | none => [] := by
  have hswap : outputFor b k =
      (((lwwFold b).map Prod.snd).filter (fun e => flowKey e == k)).filter
        (fun i => toString i.args.flowRate != "0") := by
    rw [outputFor, getLatestFlows_eq, List.filter_filter, List.filter_filter]
    exact List.filter_congr (fun e _ => by rw [Bool.and_comm])
  rw [hswap, mapSnd_filter_key _ (fun p hp => (mem_lwwFold hp).2)
    (nodupKeys_lwwFold b) k, assocFind_lwwFold]
  cases lastWithKey b k with
  | none => rfl
  | some e =>
    by_cases h : toString e.args.flowRate != "0" <;>
      simp [Option.toList, List.filter_cons, h]

/-! ### Lemmas about `lastWithKey` -/

theorem lastWithKey_mem {b : List FlowUpdatedEvent} {k : String}
    {e : FlowUpdatedEvent} (h : lastWithKey b k = some e) :
    e ∈ b ∧ flowKey e = k := by
  induction b with
  | nil => simp [lastWithKey] at h
  | cons i rest ih =>
    rw [lastWithKey] at h
    cases hr : lastWithKey rest k with
    | some e' =>
      rw [hr] at h
      obtain rfl : e' = e := by simpa using h
      rcases ih hr with ⟨h1, h2⟩
      exact ⟨List.mem_cons_of_mem _ h1, h2⟩
    | none =>
      rw [hr] at h
      by_cases hk : flowKey i = k
      · rw [if_pos hk] at h
        obtain rfl : i = e := by simpa using h
        exact ⟨List.mem_cons_self _ _, hk⟩
      · rw [if_neg hk] at h
        simp at h

theorem lastWithKey_eq_none {b : List FlowUpdatedEvent} {k : String}
    (h : lastWithKey b k = none) : ∀ e ∈ b, flowKey e ≠ k := by
  induction b with
  | nil => intro e he; simp at he
  | cons i rest ih =>
    intro e he
    rw [lastWithKey] at h
    cases hr : lastWithKey rest k with
    | some e' => rw [hr] at h; simp at h
    | none =>
      rw [hr] at h
      by_cases hk : flowKey i = k
      · rw [if_pos hk] at h; simp at h
      · rcases List.mem_cons.1 he with rfl | he'
        · exact hk
        · exact ih hr e he'

theorem lastWithKey_isSome_of_mem {b : List FlowUpdatedEvent}
    {e : FlowUpdatedEvent} (he : e ∈ b) :
    ∃ w, lastWithKey b (flowKey e) = some w := by
  cases hw : lastWithKey b (flowKey e) with
  | some w => exact ⟨w, rfl⟩
  | none => exact absurd rfl (lastWithKey_eq_none hw e he)

theorem lastWithKey_pos_max {b : List FlowUpdatedEvent}
    (hs : b.Pairwise (fun a c => a.pos < c.pos)) {k : String}
    {e : FlowUpdatedEvent} (h : lastWithKey b k = some e) :
    ∀ e' ∈ b, flowKey e' = k → e'.pos ≤ e.pos := by
  induction b with
  | nil => intro e' he'; simp at he'
  | cons i rest ih =>
    intro e' he' hk'
    rw [lastWithKey] at h
    rcases List.pairwise_cons.1 hs with ⟨hi, hrest⟩
    cases hr : lastWithKey rest k with
    | some w =>
      rw [hr] at h
      obtain rfl : w = e := by simpa using h
      rcases List.mem_cons.1 he' with rfl | he''
      · exact le_of_lt (hi _ (lastWithKey_mem hr).1)
      · exact ih hrest hr e' he'' hk'
    | none =>
      rw [hr] at h
      by_cases hk : flowKey i = k
      · rw [if_pos hk] at h
        obtain rfl : i = e := by simpa using h
        rcases List.mem_cons.1 he' with rfl | he''
        · exact le_refl _
        · exact absurd hk' (lastWithKey_eq_none hr e' he'')
      · rw [if_neg hk] at h
        simp at h

theorem lastWithKey_eq_getLast (b : List FlowUpdatedEvent) (k : String) :
    lastWithKey b k = (eventsWithKey b k).getLast? := by
  induction b with
  | nil => rfl
  | cons i rest ih =>
    rw [lastWithKey, ih]
    simp only [eventsWithKey, List.filter_cons]
    by_cases hk : flowKey i = k
    · simp only [hk, beq_self_eq_true, if_true]
      cases hfr : (List.filter (fun e => flowKey e == k) rest) with
      | nil => simp [hk]
      | cons x xs =>
        rw [List.getLast?_cons_cons]
        cases hxs : (x :: xs).getLast? with
        | some w => rfl
        | none =>
          rw [List.getLast?_eq_none_iff] at hxs
          simp at hxs
    · have hkb : (flowKey i == k) = false := by simpa using hk
      simp only [hkb, Bool.false_eq_true, if_false, if_neg hk]
      cases (List.filter (fun e => flowKey e == k) rest).getLast? <;> rfl

theorem lastWithKey_congr {b₁ b₂ : List FlowUpdatedEvent} {k : String}
    (h : eventsWithKey b₁ k = eventsWithKey b₂ k) :
    lastWithKey b₁ k = lastWithKey b₂ k := by
  rw [lastWithKey_eq_getLast, lastWithKey_eq_getLast, h]

/-! ### Uniqueness of grouping keys and idempotence -/

theorem getLatestFlows_nonzero {b : List FlowUpdatedEvent}
    {e : FlowUpdatedEvent} (he : e ∈ getLatestFlows b) :
    (toString e.args.flowRate != "0") = true := by
  rw [getLatestFlows_eq] at he
  exact (List.mem_filter.1 he).2

theorem nodup_flowKeys_getLatestFlows (b : List FlowUpdatedEvent) :
    ((getLatestFlows b).map flowKey).Nodup := by
  have h1 : (lwwFold b).map Prod.fst = (lwwFold b).map (fun p => flowKey p.2) :=
    List.map_congr_left (fun p hp => (mem_lwwFold hp).2)
  have h2 : ((lwwFold b).map (fun p => flowKey p.2)).Nodup :=
    h1 ▸ nodupKeys_lwwFold b
  have h3 : (((lwwFold b).map Prod.snd).map flowKey).Nodup := by
    rw [List.map_map]; exact h2
  have hsub : List.Sublist ((getLatestFlows b).map flowKey)
      (((lwwFold b).map Prod.snd).map flowKey) := by
    rw [getLatestFlows_eq]
    exact (List.filter_sublist _).map _
  exact List.Nodup.sublist hsub h3

theorem insertLww_append {acc : List (String × FlowUpdatedEvent)} {k : String}
    (hk : k ∉ acc.map Prod.fst) (e : FlowUpdatedEvent) :
    insertLww acc k e = acc ++ [(k, e)] := by
  induction acc with
  | nil => rfl
  | cons p rest ih =>
    obtain ⟨k₀, e₀⟩ := p
    simp only [List.map_cons, List.mem_cons] at hk
    push_neg at hk
    have h : k₀ ≠ k := fun hh => hk.1 hh.symm
    simp [insertLww, h, ih hk.2]

theorem foldl_lwwStep_nodupKeys {l : List FlowUpdatedEvent} :
    ∀ {acc : List (String × FlowUpdatedEvent)},
    (l.map flowKey).Nodup → (∀ e ∈ l, flowKey e ∉ acc.map Prod.fst) →
    l.foldl lwwStep acc = acc ++ l.map (fun e => (flowKey e, e)) := by
  induction l with
  | nil => intro acc _ _; simp
  | cons i rest ih =>
    intro acc hnd hfresh
    simp only [List.map_cons, List.nodup_cons] at hnd
    have hstep : lwwStep acc i = acc ++ [(flowKey i, i)] :=
      insertLww_append (hfresh i (List.mem_cons_self _ _)) i
    have hfresh' : ∀ e ∈ rest,
        flowKey e ∉ (acc ++ [(flowKey i, i)]).map Prod.fst := by
      intro e he
      rw [List.map_append]
      rw [List.mem_append]
      push_neg
      refine ⟨hfresh e (List.mem_cons_of_mem _ he), ?_⟩
      intro hcontra
      simp only [List.map_cons, List.map_nil, List.mem_singleton] at hcontra
      exact hnd.1 (hcontra ▸ List.mem_map_of_mem flowKey he)
    calc (i :: rest).foldl lwwStep acc
        = rest.foldl lwwStep (lwwStep acc i) := rfl
      _ = (acc ++ [(flowKey i, i)]) ++ rest.map (fun e => (flowKey e, e)) := by
          rw [hstep]
          exact ih hnd.2 hfresh'
      _ = acc ++ ((i :: rest).map fun e => (flowKey e, e)) := by simp

theorem getLatestFlows_idem (b : List FlowUpdatedEvent) :
    getLatestFlows (getLatestFlows b) = getLatestFlows b := by
  have hnd := nodup_flowKeys_getLatestFlows b
  have hfold : lwwFold (getLatestFlows b) =
      (getLatestFlows b).map (fun e => (flowKey e, e)) := by
    rw [lwwFold]
    simpa using foldl_lwwStep_nodupKeys hnd (fun e _ => by simp)
  rw [getLatestFlows_eq (getLatestFlows b), hfold, List.map_map]
  have hmap : (getLatestFlows b).map (Prod.snd ∘ fun e => (flowKey e, e)) =
      getLatestFlows b := by
    rw [show (Prod.snd ∘ fun e : FlowUpdatedEvent => (flowKey e, e)) = id from rfl,
      List.map_id]
  rw [hmap]
  exact List.filter_eq_self.2 (fun e he => getLatestFlows_nonzero he)

/-! ### String lemmas for the composite grouping key -/

theorem key_right_cancel {s₁ s₂ r : String}
    (h : s₁ ++ ":" ++ r = s₂ ++ ":" ++ r) : s₁ = s₂ := by
  apply String.ext
  have hd := congrArg String.data h
  simp only [String.data_append] at hd
  exact List.append_cancel_right (List.append_cancel_right hd)

theorem key_left_cancel {s r₁ r₂ : String}
    (h : s ++ ":" ++ r₁ = s ++ ":" ++ r₂) : r₁ = r₂ := by
  apply String.ext
  have hd := congrArg String.data h
  simp only [String.data_append, List.append_assoc] at hd
  exact List.append_cancel_left (List.append_cancel_left hd)

theorem outputFor_eq_toList (b : List FlowUpdatedEvent) (k : String) :
    outputFor b k =
      ((lastWithKey b k).toList).filter
        (fun e => toString e.args.flowRate != "0") := by
  rw [outputFor_eq]
  cases lastWithKey b k with
  | none => rfl
  | some e =>
    simp only [Option.toList, List.filter_cons, List.filter_nil]

theorem mem_outputFor_self {b : List FlowUpdatedEvent} {e : FlowUpdatedEvent} :
    e ∈ outputFor b (flowKey e) ↔ e ∈ getLatestFlows b := by
  rw [outputFor]
  simp [List.mem_filter]

theorem outputFor_subset {b : List FlowUpdatedEvent} {k : String}
    {e : FlowUpdatedEvent} (he : e ∈ outputFor b k) : e ∈ getLatestFlows b := by
  rw [outputFor] at he
  exact (List.mem_filter.1 he).1

theorem recv_iff_send_of_selfKey {e : FlowUpdatedEvent} {a : String}
    (hk : flowKey e = a ++ ":" ++ a) :
    (e.args.receiver = a ↔ e.args.sender = a) := by
  rw [flowKey] at hk
  constructor
  · intro hr
    exact key_right_cancel (hr ▸ hk)
  · intro hs
    exact key_left_cancel (hs ▸ hk)

theorem eventsWithKey_fetch_self (log : List FlowUpdatedEvent) (t a : String) :
    eventsWithKey (fetchInEvents log t a) (a ++ ":" ++ a) =
      eventsWithKey (fetchOutEvents log t a) (a ++ ":" ++ a) := by
  rw [eventsWithKey, eventsWithKey, fetchInEvents, fetchOutEvents,
    List.filter_filter, List.filter_filter]
  apply List.filter_congr
  intro e _
  by_cases hk : flowKey e = a ++ ":" ++ a
  · have hkb : (flowKey e == a ++ ":" ++ a) = true := by simpa using hk
    have hiff := recv_iff_send_of_selfKey hk
    by_cases hr : e.args.receiver = a
    · have hs : e.args.sender = a := hiff.1 hr
      have h1 : (e.args.receiver == a) = true := by simpa using hr
      have h2 : (e.args.sender == a) = true := by simpa using hs
      simp [hkb, h1, h2]
    · have hs : ¬ e.args.sender = a := fun h => hr (hiff.2 h)
      have h1 : (e.args.receiver == a) = false := by simpa using hr
      have h2 : (e.args.sender == a) = false := by simpa using hs
      simp [hkb, h1, h2]
  · have hkb : (flowKey e == a ++ ":" ++ a) = false := by simpa using hk
    simp [hkb]

theorem outputFor_fetch_self (log : List FlowUpdatedEvent) (t a : String) :
    outputFor (fetchInEvents log t a) (a ++ ":" ++ a) =
      outputFor (fetchOutEvents log t a) (a ++ ":" ++ a) := by
  rw [outputFor_eq, outputFor_eq,
    lastWithKey_congr (eventsWithKey_fetch_self log t a)]

/-! ### Claim theorems -/

/-- C1 counterexample: the reconciler is not shuffle-invariant and does not
select the maximum-position event.  For the batch
`[(A→B, rate 3, pos 2), (A→B, rate 5, pos 1)]` (a permutation of the sorted
batch) the output keeps the position-1 event even though a position-2 event
for the same key is present. -/
theorem claim_C1_counterexample :
    getLatestFlows [evAB 3 2, evAB 5 1] ≠ getLatestFlows [evAB 5 1, evAB 3 2] ∧
    List.Perm [evAB 3 2, evAB 5 1] [evAB 5 1, evAB 3 2] ∧
    outputFor [evAB 3 2, evAB 5 1] "A:B" = [evAB 5 1] ∧
    evAB 3 2 ∈ eventsWithKey [evAB 3 2, evAB 5 1] "A:B" ∧
    (evAB 5 1).pos < (evAB 3 2).pos :=
  ⟨by decide, List.Perm.swap _ _ _, by decide, by decide, by decide⟩

/-- C1 (amended): for every input batch, the reconciler's output entry for a
key is the last event in input order sharing that key (kept when its rate is
nonzero, dropped when zero; the key is absent when no event shares it).
For a batch sorted in strictly increasing total-order position this last
event is exactly the event with the maximum total-order position among the
batch's events sharing the key, and the output is the same across all
position-sorted orderings of the same events; shuffle invariance does not
hold for unsorted permutations. -/
theorem claim_C1_lastWriteWins (b : List FlowUpdatedEvent) :
    (∀ (k : String) (e : FlowUpdatedEvent), lastWithKey b k = some e →
      (toString e.args.flowRate ≠ "0" → outputFor b k = [e]) ∧
      (toString e.args.flowRate = "0" → outputFor b k = []) ∧
      (b.Pairwise (fun a c => a.pos < c.pos) →
        ∀ e' ∈ eventsWithKey b k, e'.pos ≤ e.pos)) ∧
    (∀ k : String, lastWithKey b k = none → outputFor b k = []) ∧
    (∀ b' : List FlowUpdatedEvent, b.Pairwise (fun a c => a.pos < c.pos) →
      b'.Pairwise (fun a c => a.pos < c.pos) →
      List.Perm b' b → getLatestFlows b' = getLatestFlows b) := by
  refine ⟨?_, ?_, ?_⟩
  · intro k e hlast
    refine ⟨?_, ?_, ?_⟩
    · intro hnz
      rw [outputFor_eq_toList, hlast]
      have hb : (toString e.args.flowRate != "0") = true := by simpa using hnz
      simp [Option.toList, List.filter_cons, hb]
    · intro hz
      rw [outputFor_eq_toList, hlast]
      have hb : (toString e.args.flowRate != "0") = false := by rw [hz]; decide
      simp [Option.toList, List.filter_cons, hb]
    · intro hs e' he'
      rw [eventsWithKey] at he'
      rcases List.mem_filter.1 he' with ⟨hmem, hkey⟩
      exact lastWithKey_pos_max hs hlast e' hmem (by simpa using hkey)
  · intro k hnone
    rw [outputFor_eq_toList, hnone]
    rfl
  · intro b' hs hs' hperm
    haveI : IsAntisymm FlowUpdatedEvent (fun a c => a.pos < c.pos) :=
      ⟨fun x y h1 h2 => absurd (h1.trans h2) (lt_irrefl _)⟩
    rw [List.eq_of_perm_of_sorted hperm hs' hs]

/-- C1 witness: on the spec's sorted example batch
`[(A→B, 5, pos 1), (A→B, 0, pos 2), (A→B, 3, pos 3)]` the winning event for
key "A:B" is the rate-3 event, which dominates the position of the rate-0
event; and on the unsorted batch `[(A→B, 3, pos 2), (A→B, 5, pos 1)]` the
unconditional clause yields the last-in-input-order (stale) event. -/
theorem claim_C1_lastWriteWins_witness :
    outputFor [evAB 5 1, evAB 0 2, evAB 3 3] "A:B" = [evAB 3 3] ∧
    (evAB 0 2).pos ≤ (evAB 3 3).pos ∧
    outputFor [evAB 3 2, evAB 5 1] "A:B" = [evAB 5 1] := by
  have h2 := (claim_C1_lastWriteWins [evAB 5 1, evAB 0 2, evAB 3 3]).1
    "A:B" (evAB 3 3) (by decide)
  have hu := (claim_C1_lastWriteWins [evAB 3 2, evAB 5 1]).1
    "A:B" (evAB 5 1) (by decide)
  exact ⟨h2.1 (by decide), h2.2.2 (by decide) (evAB 0 2) (by decide),
    hu.1 (by decide)⟩

/-- C2 counterexample: in an unsorted batch whose maximum-position event for
key "A:B" has flowRate 0, the key is still present in the output (with the
stale nonzero rate), because the reconciler keeps the last event in input
order rather than the greatest-position event. -/
theorem claim_C2_counterexample :
    (evAB 0 3).args.flowRate = 0 ∧
    (evAB 5 2).pos < (evAB 0 3).pos ∧
    eventsWithKey [evAB 0 3, evAB 5 2] "A:B" = [evAB 0 3, evAB 5 2] ∧
    outputFor [evAB 0 3, evAB 5 2] "A:B" = [evAB 5 2] := by
  decide

/-- C2 (amended): the winning event for a key is the reconciler's surviving
event, i.e. the last one in input order (which equals the greatest-position
event whenever the batch is position-sorted, as in C1).  If that winning
event has flowRate 0 the key is absent from the output, and unconditionally
no output entry ever has a zero flowRate. -/
theorem claim_C2_closureExclusion (b : List FlowUpdatedEvent) (k : String) :
    (∀ e ∈ getLatestFlows b, e.args.flowRate ≠ 0) ∧
    (∀ e, lastWithKey b k = some e → e.args.flowRate = 0 →
      outputFor b k = []) := by
  constructor
  · intro e he hz
    have h := getLatestFlows_nonzero he
    rw [hz] at h
    exact absurd h (by decide)
  · intro e hlast hz
    rw [outputFor_eq_toList, hlast]
    have hb : (toString e.args.flowRate != "0") = false := by rw [hz]; decide
    simp [Option.toList, List.filter_cons, hb]

/-- C2 witness: on the spec's closure example
`[(A→B, 5, pos 1), (A→B, 0, pos 2)]` the key "A:B" is absent from the
output. -/
theorem claim_C2_closureExclusion_witness :
    outputFor [evAB 5 1, evAB 0 2] "A:B" = [] :=
  (claim_C2_closureExclusion [evAB 5 1, evAB 0 2] "A:B").2 (evAB 0 2)
    (by decide) (by decide)

/-- C3: every entry of `inFlows` has receiver equal to the queried account
(given the receiver-filtered precondition on the batch), every entry of
`outFlows` has sender equal to the queried account (given the
sender-filtered precondition), and over a common event log a flow with
sender = receiver = account appears in `inFlows` exactly when it appears in
`outFlows` when both directions are requested. -/
theorem claim_C3_directionPartition :
    (∀ (inB outB : List FlowUpdatedEvent) (account : String)
       (oi oo : Bool) (l : List FlowListEntry) (x : FlowListEntry),
       (∀ e ∈ inB, e.args.receiver = account) →
       (listFlows inB outB oi oo).inFlows = some l → x ∈ l →
       x.receiver = account) ∧
    (∀ (inB outB : List FlowUpdatedEvent) (account : String)
       (oi oo : Bool) (l : List FlowListEntry) (x : FlowListEntry),
       (∀ e ∈ outB, e.args.sender = account) →
       (listFlows inB outB oi oo).outFlows = some l → x ∈ l →
       x.sender = account) ∧
    (∀ (log : List FlowUpdatedEvent) (t account : String)
       (lin lout : List FlowListEntry) (x : FlowListEntry),
       (listFlowsFromLog log t account false false).inFlows = some lin →
       (listFlowsFromLog log t account false false).outFlows = some lout →
       x.sender = account → x.receiver = account →
       (x ∈ lin ↔ x ∈ lout)) := by
  refine ⟨?_, ?_, ?_⟩
  · intro inB outB account oi oo l x hpre hin hx
    cases oo with
    | true => simp [listFlows] at hin
    | false =>
      have heq : (listFlows inB outB oi false).inFlows =
          some ((getLatestFlows inB).map projectFlow) := rfl
      rw [heq] at hin
      rcases Option.some.inj hin with rfl
      rcases List.mem_map.1 hx with ⟨e, he, rfl⟩
      exact hpre e (mem_of_mem_getLatestFlows he)
  · intro inB outB account oi oo l x hpre hout hx
    cases oi with
    | true => simp [listFlows] at hout
    | false =>
      have heq : (listFlows inB outB false oo).outFlows =
          some ((getLatestFlows outB).map projectFlow) := rfl
      rw [heq] at hout
      rcases Option.some.inj hout with rfl
      rcases List.mem_map.1 hx with ⟨e, he, rfl⟩
      exact hpre e (mem_of_mem_getLatestFlows he)
  · intro log t account lin lout x hin hout hxs hxr
    have heqi : (listFlowsFromLog log t account false false).inFlows =
        some ((getLatestFlows (fetchInEvents log t account)).map projectFlow) :=
      rfl
    have heqo : (listFlowsFromLog log t account false false).outFlows =
        some ((getLatestFlows (fetchOutEvents log t account)).map projectFlow) :=
      rfl
    rw [heqi] at hin
    rw [heqo] at hout
    rcases Option.some.inj hin with rfl
    rcases Option.some.inj hout with rfl
    constructor
    · intro hx
      rcases List.mem_map.1 hx with ⟨e, he, rfl⟩
      have hkey : flowKey e = account ++ ":" ++ account := by
        rw [flowKey]
        rw [show e.args.sender = account from hxs,
          show e.args.receiver = account from hxr]
      have h1 : e ∈ outputFor (fetchInEvents log t account) (flowKey e) :=
        mem_outputFor_self.2 he
      rw [hkey, outputFor_fetch_self] at h1
      exact List.mem_map_of_mem projectFlow (outputFor_subset h1)
    · intro hx
      rcases List.mem_map.1 hx with ⟨e, he, rfl⟩
      have hkey : flowKey e = account ++ ":" ++ account := by
        rw [flowKey]
        rw [show e.args.sender = account from hxs,
          show e.args.receiver = account from hxr]
      have h1 : e ∈ outputFor (fetchOutEvents log t account) (flowKey e) :=
        mem_outputFor_self.2 he
      rw [hkey, ← outputFor_fetch_self] at h1
      exact List.mem_map_of_mem projectFlow (outputFor_subset h1)

/-- C3 witness: a one-event receiver-filtered batch B→A yields an entry with
receiver "A", and over a one-event self-flow log A→A the projected entry in
`inFlows` also appears in `outFlows`. -/
theorem claim_C3_directionPartition_witness :
    (FlowListEntry.mk "B" "A" "7").receiver = "A" ∧
    FlowListEntry.mk "A" "A" "7" ∈ [FlowListEntry.mk "A" "A" "7"] := by
  constructor
  · exact claim_C3_directionPartition.1
      [{ token := "T", args := { sender := "B", receiver := "A", flowRate := 7 }, pos := 1 }]
      [] "A" false false [FlowListEntry.mk "B" "A" "7"]
      (FlowListEntry.mk "B" "A" "7") (by decide) rfl (by decide)
  · exact (claim_C3_directionPartition.2.2
      [{ token := "T", args := { sender := "A", receiver := "A", flowRate := 7 }, pos := 1 }]
      "T" "A" [FlowListEntry.mk "A" "A" "7"] [FlowListEntry.mk "A" "A" "7"]
      (FlowListEntry.mk "A" "A" "7") rfl rfl rfl rfl).1 (by decide)

/-- C4: requesting only the inbound direction (`onlyInFlows = true`,
`onlyOutFlows = false`) yields a result whose `outFlows` field is absent
(`none`, never an empty sequence) while `inFlows` is present; symmetrically
for requesting only the outbound direction. -/
theorem claim_C4_modeSuppression (inB outB : List FlowUpdatedEvent) :
    (listFlows inB outB true false).outFlows = none ∧
    (listFlows inB outB true false).inFlows =
      some ((getLatestFlows inB).map projectFlow) ∧
    (listFlows inB outB false true).inFlows = none ∧
    (listFlows inB outB false true).outFlows =
      some ((getLatestFlows outB).map projectFlow) :=
  ⟨rfl, rfl, rfl, rfl⟩

/-- C5: when a requested direction's fetched batch is empty, the
corresponding field of the result is present and equal to the empty
sequence (`some []`), for any state of the other batch and the other
mode flag. -/
theorem claim_C5_emptyBatch (inB outB : List FlowUpdatedEvent)
    (oi oo : Bool) :
    (listFlows [] outB oi false).inFlows = some [] ∧
    (listFlows inB [] false oo).outFlows = some [] :=
  ⟨rfl, rfl⟩

/-- C6 counterexample: with the identity normalizer, supplying the empty
string as the acting-identity parameter issues the ledger call from the
normalized sender "A", not from the normalized supplied value "" — the JS
truthiness test `(by && ...)` treats an empty string like an omitted
parameter. -/
theorem claim_C6_counterexample :
    (deleteFlow id id "T" "A" "B" (some "")).fromAddr = id "A" ∧
    id "" ≠ id "A" := by
  decide

/-- C6 (amended): when the acting-identity parameter is omitted the call is
issued from the normalized sender; when a non-empty value is supplied whose
normalization is non-empty, the call is issued from the normalized supplied
value; a supplied value that is empty, or that normalizes to the empty
string, falls back to the normalized sender. -/
theorem claim_C6_actingIdentity (normT normA : String → String)
    (superToken sender receiver : String) :
    (deleteFlow normT normA superToken sender receiver none).fromAddr =
      normA sender ∧
    (∀ s, s ≠ "" → normA s ≠ "" →
      (deleteFlow normT normA superToken sender receiver (some s)).fromAddr =
        normA s) ∧
    (∀ s, s = "" ∨ normA s = "" →
      (deleteFlow normT normA superToken sender receiver (some s)).fromAddr =
        normA sender) := by
  refine ⟨rfl, ?_, ?_⟩
  · intro s hs hns
    simp [deleteFlow, hs, hns]
  · intro s hs
    rcases hs with rfl | hns
    · rfl
    · by_cases h : s = ""
      · subst h; rfl
      · simp [deleteFlow, h, hns]

/-- C6 witness: with the identity normalizer, omitting the parameter acts as
"A" (the sender), supplying "C" acts as "C", and supplying the empty string
falls back to "A". -/
theorem claim_C6_actingIdentity_witness :
    (deleteFlow id id "T" "A" "B" none).fromAddr = id "A" ∧
    (deleteFlow id id "T" "A" "B" (some "C")).fromAddr = id "C" ∧
    (deleteFlow id id "T" "A" "B" (some "")).fromAddr = id "A" := by
  have h := claim_C6_actingIdentity id id "T" "A" "B"
  exact ⟨h.1, h.2.1 "C" (by decide) (by decide), h.2.2 "" (Or.inl rfl)⟩

/-- C7: `getFlow`'s result shaping turns the raw ledger record into a record
whose timestamp is the raw second-valued timestamp scaled to milliseconds
(an exact multiple, recovering the raw instant), and whose flowRate,
deposit and owedDeposit are the decimal-string renderings of the raw
values; nothing is filtered or otherwise derived. -/
theorem claim_C7_getFlowShaping (r : RawFlowData) :
    (sanitizeFlowResult r).timestampMs = r.timestamp * 1000 ∧
    (sanitizeFlowResult r).timestampMs / 1000 = r.timestamp ∧
    (sanitizeFlowResult r).timestampMs % 1000 = 0 ∧
    (sanitizeFlowResult r).flowRate = toString r.flowRate ∧
    (sanitizeFlowResult r).deposit = toString r.deposit ∧
    (sanitizeFlowResult r).owedDeposit = toString r.owedDeposit := by
  refine ⟨rfl, ?_, ?_, rfl, rfl, rfl⟩
  · show r.timestamp * 1000 / 1000 = r.timestamp
    omega
  · show r.timestamp * 1000 % 1000 = 0
    omega

/-- C8: the reconciliation step is deterministic — it is a pure function of
the input batch, so two applications to the same batch are the very same
value; moreover re-reconciling its own output leaves it unchanged (the
output has one entry per key and no zero rates, so the fold and the filter
are both no-ops on it). -/
theorem claim_C8_reconcilerDeterministic (b : List FlowUpdatedEvent) :
    getLatestFlows b = getLatestFlows b ∧
    getLatestFlows (getLatestFlows b) = getLatestFlows b :=
  ⟨rfl, getLatestFlows_idem b⟩

/-- C9: calling `listFlows` with both `onlyInFlows` and `onlyOutFlows` set
suppresses both fields: the result is the record with neither `inFlows` nor
`outFlows` present, and no error is raised (the function is total). -/
theorem claim_C9_bothOnlyFlags (inB outB : List FlowUpdatedEvent) :
    listFlows inB outB true true =
      { inFlows := none, outFlows := none } :=
  rfl

/-- C10: the reconciler's output has pairwise-distinct grouping keys
`sender ++ ":" ++ receiver` (at most one entry per key), and therefore at
most one entry per (sender, receiver) pair — stated, as the claim does,
under the proviso that no sender identifier contains the ':' character,
though the per-pair uniqueness needs no proviso since equal pairs always
produce equal keys.  The same holds for the projected entry lists that
`listFlows` places in `inFlows` and `outFlows`. -/
theorem claim_C10_atMostOnePerKey (b : List FlowUpdatedEvent)
    (_hcolon : ∀ e ∈ b, ¬ (':' ∈ e.args.sender.data)) :
    ((getLatestFlows b).map flowKey).Nodup ∧
    (getLatestFlows b).Pairwise
      (fun a c => ¬(a.args.sender = c.args.sender ∧
        a.args.receiver = c.args.receiver)) ∧
    ((getLatestFlows b).map projectFlow).Pairwise
      (fun a c => ¬(a.sender = c.sender ∧ a.receiver = c.receiver)) := by
  have h1 := nodup_flowKeys_getLatestFlows b
  have h1' : ((getLatestFlows b).map flowKey).Pairwise (fun a c => a ≠ c) := h1
  have h2 : (getLatestFlows b).Pairwise
      (fun a c => flowKey a ≠ flowKey c) := List.pairwise_map.1 h1'
  have h3 : (getLatestFlows b).Pairwise
      (fun a c => ¬(a.args.sender = c.args.sender ∧
        a.args.receiver = c.args.receiver)) :=
    h2.imp (fun hne hand =>
      hne (by rw [flowKey, flowKey, hand.1, hand.2]))
  refine ⟨h1, h3, ?_⟩
  exact List.pairwise_map.2 (h3.imp (fun h hand => h hand))

/-- C10 witness: on a two-event batch for the single pair (A,B) the output's
key list has no duplicates. -/
theorem claim_C10_atMostOnePerKey_witness :
    ((getLatestFlows [evAB 5 1, evAB 3 2]).map flowKey).Nodup :=
  (claim_C10_atMostOnePerKey [evAB 5 1, evAB 3 2] (by decide)).1

end CFAV1Helper

